import Mathlib

/-!
Verification of the network reduction / task-edge selection / export pipeline
of `RealCase.py` (functions `adjust_network_size`,
`export_network_to_json_format`, and the task-edge selection block of
`create_network_with_basemap`).

The graph is the undirected multigraph handled by the script: nodes carry an
identifier and `x`/`y` coordinates (longitude/latitude), edges carry their two
endpoint identifiers and an optional `length` attribute in meters (absent when
the attribute is missing, e.g. after an edge is re-added by the reducer).
Edge lengths and coordinates are modelled as rationals; Python `int()`
truncation is modelled by `Int.tdiv` on the rational.
-/

structure NodeData where
  id : ℕ
  x : ℚ
  y : ℚ
deriving DecidableEq, Repr

structure Edge where
  u : ℕ
  v : ℕ
  length : Option ℚ
deriving DecidableEq, Repr

structure Graph where
  nodes : List NodeData
  edges : List Edge
deriving DecidableEq, Repr

/-- The node identifiers of the graph in iteration (insertion) order,
as produced by `G.nodes()`. -/
def Graph.nodeIds (g : Graph) : List ℕ := g.nodes.map NodeData.id

/-- There is an edge between `a` and `b` (in either stored orientation) —
the adjacency relation of the undirected multigraph. -/
def Graph.adj (g : Graph) (a b : ℕ) : Bool :=
  g.edges.any (fun e => decide ((e.u = a ∧ e.v = b) ∨ (e.u = b ∧ e.v = a)))

/-- Degree-positive test: `a` has at least one incident edge. -/
def Graph.degPos (g : Graph) (a : ℕ) : Bool :=
  g.edges.any (fun e => decide (e.u = a ∨ e.v = a))

/-- The spec's Graph invariant: node ids are unique and every edge's
endpoints exist in the node set. -/
abbrev Graph.WellFormed (g : Graph) : Prop :=
  g.nodeIds.Nodup ∧ ∀ e ∈ g.edges, e.u ∈ g.nodeIds ∧ e.v ∈ g.nodeIds

/-! ## Reachability and `nx.is_connected`

`nx.is_connected` runs a traversal from an arbitrary (the first) node and
compares the number of reached nodes with `len(G)`.  We model the traversal
as `g.nodes.length` rounds of frontier expansion over the node set. -/

/-- One round of frontier expansion: keep `s` and add every node adjacent to
a member of `s`. -/
def nstep (g : Graph) (s : Finset ℕ) : Finset ℕ :=
  s ∪ g.nodeIds.toFinset.filter (fun b => ∃ a ∈ s, g.adj a b = true)

/-- All nodes reachable from `h0`: `g.nodes.length` rounds of expansion
starting from the singleton frontier (enough rounds to stabilize). -/
def reachF (g : Graph) (h0 : ℕ) : Finset ℕ :=
  (nstep g)^[g.nodes.length] {h0}

/-- `nx.is_connected(G)`: the traversal from the first node reaches every
node.  (networkx raises on a null graph; the reducer never calls it on one,
and we let the model return `false` there.) -/
def isConnected (g : Graph) : Bool :=
  decide (g.nodeIds ≠ [] ∧ ∀ b ∈ g.nodeIds, b ∈ reachF g (g.nodeIds.headD 0))

/-! ## Graph operations used by the reducer -/

/-- Remove the first list entry satisfying `p` (networkx
`G.remove_edge(u, v)` deletes a single edge between `u` and `v`; for
parallel edges the key choice is left to the library). -/
def removeFirst (p : Edge → Bool) : List Edge → List Edge
  | [] => []
  | e :: es => if p e then es else e :: removeFirst p es

/-- `G.remove_edge(u, v)`: delete one edge joining `u` and `v`
(either stored orientation). -/
def removeEdge (g : Graph) (u v : ℕ) : Graph :=
  { g with
    edges := removeFirst (fun e => decide ((e.u = u ∧ e.v = v) ∨ (e.u = v ∧ e.v = u))) g.edges }

/-- `G.add_edge(u, v)`: append an edge between `u` and `v`.  Called by the
reducer to undo a removal; the call passes no attributes, so the restored
edge has no `length`. -/
def addEdge (g : Graph) (u v : ℕ) : Graph :=
  { g with edges := g.edges ++ [⟨u, v, none⟩] }

/-- Induced subgraph `G.subgraph(s).copy()`: the nodes of `g` that lie in
`s` (in the original iteration order) and the edges with both endpoints
in `s`. -/
def induced (g : Graph) (s : Finset ℕ) : Graph :=
  { nodes := g.nodes.filter (fun n => decide (n.id ∈ s)),
    edges := g.edges.filter (fun e => decide (e.u ∈ s) && decide (e.v ∈ s)) }

/-- `nx.connected_components(G)` as node sets, in order of first appearance
of an unseen node, each component computed by traversal. -/
def componentsAux (g : Graph) : List ℕ → Finset ℕ → List (Finset ℕ)
  | [], _ => []
  | n :: rest, seen =>
    if n ∈ seen then componentsAux g rest seen
    else reachF g n :: componentsAux g rest (seen ∪ reachF g n)

def connected_components (g : Graph) : List (Finset ℕ) :=
  componentsAux g g.nodeIds ∅

/-- `max(nx.connected_components(G), key=len)`: the first component of
maximal size. -/
def largest_cc (g : Graph) : Finset ℕ :=
  match connected_components g with
  | [] => ∅
  | c :: cs => cs.foldl (fun best c2 => if best.card < c2.card then c2 else best) c

/-- `G.subgraph(largest_cc).copy()`. -/
def largestCC (g : Graph) : Graph := induced g (largest_cc g)

/-- The `ox.graph_to_gdfs` / `ox.graph_from_gdfs` round trip of the loop
body.  `graph_to_gdfs(G, nodes=True, edges=True)` raises `ValueError` when
the graph has no edges; otherwise `graph_from_gdfs` rebuilds the same nodes
(nodes without incident edges are re-added from the node frame) and the
same edges with their surviving attributes. -/
def roundTrip (g : Graph) : Except String Graph :=
  if g.edges.isEmpty then Except.error "graph contains no edges" else Except.ok g

/-- One candidate of the inner `for edge in edges` loop: if the node count
already meets the target do nothing (the `break`); otherwise remove the
edge, and re-add it when `nx.is_connected` fails on the resulting graph. -/
def tryRemove (t : ℕ) (g : Graph) (p : ℕ × ℕ) : Graph :=
  if g.nodes.length ≤ t then g
  else if isConnected (removeEdge g p.1 p.2) then removeEdge g p.1 p.2
  else addEdge (removeEdge g p.1 p.2) p.1 p.2

/-- A full pass over the snapshot `edges = list(G.edges())`. -/
def edgeRemovalPass (t : ℕ) (g : Graph) : Graph :=
  (g.edges.map (fun e => (e.u, e.v))).foldl (tryRemove t) g

/-- The `while len(G.nodes) > target_nodes` loop, with explicit fuel: the
code has no other exit, so `none` reports that the given number of
iterations did not suffice (the loop is still running). -/
def adjustLoop (t : ℕ) : ℕ → Graph → Except String (Option Graph)
  | 0, _ => Except.ok none
  | fuel + 1, g =>
    if g.nodes.length ≤ t then Except.ok (some g)
    else
      match roundTrip g with
      | Except.error msg => Except.error msg
      | Except.ok g1 =>
        adjustLoop t fuel (if t < g1.nodes.length then edgeRemovalPass t g1 else g1)

/-- `adjust_network_size(G, target_nodes)`.  The graph is undirected
already (the script converts directed inputs first).  `max` over the
components of an empty graph raises `ValueError`. -/
def adjust_network_size (fuel : ℕ) (g : Graph) (target_nodes : ℕ) :
    Except String (Option Graph) :=
  if g.nodes.isEmpty then Except.error "max() arg is an empty sequence"
  else adjustLoop target_nodes fuel (largestCC g)

/-! ## Spec-side connectivity check (for claim C3)

The spec prescribes that each candidate removal be judged on the graph
restricted to nodes of degree > 0.  The code judges it on the full graph;
these definitions exist only to compare the two. -/

/-- Modelled from the spec: "the graph (restricted to nodes with degree > 0,
i.e., after dropping nodes left isolated by the removal)" — drop every
node without an incident edge. -/
def dropIsolated (g : Graph) : Graph :=
  { g with nodes := g.nodes.filter (fun n => g.degPos n.id) }

/-- Modelled from the spec: the connectivity check applied to the graph
restricted to nodes of degree > 0. -/
def connCheckRestricted (g : Graph) : Bool :=
  isConnected (dropIsolated g)

/-! ## Export (`export_network_to_json_format`) -/

/-- Index of `a` in a list (first occurrence). -/
def idxIn (a : ℕ) : List ℕ → ℕ
  | [] => 0
  | b :: l => if b = a then 0 else idxIn a l + 1

/-- `node_to_index = {node: i for i, node in enumerate(G.nodes())}` —
for the distinct node ids of a graph, the dict maps a node to its position
in iteration order. -/
def node_to_index (g : Graph) (a : ℕ) : ℕ := idxIn a g.nodeIds

/-- The coordinate list: `[G.nodes[node]['x'], G.nodes[node]['y']]`
(longitude first) for each node in iteration order. -/
def node_coords (g : Graph) : List (ℚ × ℚ) :=
  g.nodes.map (fun n => (n.x, n.y))

/-- `int(data.get('length', 1))`: Python truncation toward zero of the
length attribute, with default 1 when the attribute is missing. -/
def pyInt : Option ℚ → ℤ
  | none => 1
  | some q => q.num.tdiv q.den

/-- `float(length/1000)`: the exported weight in kilometers. -/
def edgeWeightKm (e : Edge) : ℚ := (pyInt e.length : ℚ) / 1000

/-- The per-edge rows of the exported edge list: two directed triples per
edge, `[u_idx, v_idx, km]` then `[v_idx, u_idx, km]`. -/
def edgesRows (g : Graph) : List Edge → List (ℕ × ℕ × ℚ)
  | [] => []
  | e :: es =>
    (node_to_index g e.u, node_to_index g e.v, edgeWeightKm e) ::
    (node_to_index g e.v, node_to_index g e.u, edgeWeightKm e) ::
    edgesRows g es

/-- The exported `edges_data` list. -/
def edges_data (g : Graph) : List (ℕ × ℕ × ℚ) := edgesRows g g.edges

/-- The value `{"network_data": [node_coords, edges_data, task_edges_list]}`. -/
structure ExportRecord where
  node_coords : List (ℚ × ℚ)
  edges_data : List (ℕ × ℕ × ℚ)
  task_edges_list : List (ℕ × ℕ)
deriving DecidableEq, Repr

/-- `export_network_to_json_format(G, task_edge_pairs)`; the task pairs are
passed in the iteration order of the Python set. -/
def export_network_to_json_format (g : Graph) (task_edge_pairs : List (ℕ × ℕ)) :
    ExportRecord :=
  { node_coords := node_coords g,
    edges_data := edges_data g,
    task_edges_list :=
      task_edge_pairs.map (fun p => (node_to_index g p.1, node_to_index g p.2)) }

/-! ## Task-edge selection (`create_network_with_basemap`, lines 68-73) -/

/-- The sort key `x[2].get('length', 0)`. -/
def lenKey (e : Edge) : ℚ := e.length.getD 0

/-- Stable insertion step for descending order by `lenKey` (equal keys keep
their original relative order, as Python's stable `sorted` does). -/
def insortDesc (a : Edge) : List Edge → List Edge
  | [] => [a]
  | b :: bs => if lenKey b ≤ lenKey a then a :: b :: bs else b :: insortDesc a bs

/-- `sorted(all_edges, key=lambda x: x[2].get('length', 0), reverse=True)`. -/
def sorted_edges (g : Graph) : List Edge := g.edges.foldr insortDesc []

/-- `candidate_edges = sorted_edges[:len(sorted_edges)//2]`. -/
def candidate_edges (g : Graph) : List Edge :=
  (sorted_edges g).take ((sorted_edges g).length / 2)

/-- A valid draw of `random.sample(pool, min(k, len(pool)))`: a list of
distinct positions into the pool of exactly that size. -/
def IsSample (pool : List Edge) (k : ℕ) (sel : List ℕ) : Prop :=
  sel.Nodup ∧ sel.length = min k pool.length ∧ ∀ i ∈ sel, i < pool.length

/-- The sampled edges `task_edges` for a given draw. -/
def task_edges (pool : List Edge) (sel : List ℕ) : List Edge :=
  sel.map (fun i => pool.getD i ⟨0, 0, none⟩)

/-- `task_edge_pairs = set((u, v) for u, v, _ in task_edges)`. -/
def task_edge_pairs (chosen : List Edge) : Finset (ℕ × ℕ) :=
  (chosen.map (fun e => (e.u, e.v))).toFinset

/-! ## Concrete graphs for the scenarios -/

/-- The nodes A=0, B=1, C=2, D=3 of the 4-cycle scenario. -/
def cycleNodes : List NodeData :=
  [⟨0, 10, 20⟩, ⟨1, 11, 21⟩, ⟨2, 12, 22⟩, ⟨3, 13, 23⟩]

/-- The 4-node cycle A-B-C-D-A with edge lengths 100, 200, 300, 400 m. -/
def cycle4 : Graph :=
  { nodes := cycleNodes,
    edges := [⟨0, 1, some 100⟩, ⟨1, 2, some 200⟩, ⟨2, 3, some 300⟩, ⟨3, 0, some 400⟩] }

/-- The state of the reduction of `cycle4` toward 3 nodes after its first
full pass: the spanning path B-C-D-A (edge A-B removed; the other three
edges were each removed, found to disconnect the full graph, and re-added
without their `length` attribute). -/
def pathGraph : Graph :=
  { nodes := cycleNodes,
    edges := [⟨1, 2, none⟩, ⟨2, 3, none⟩, ⟨3, 0, none⟩] }

/-- A graph with two parallel long edges: the candidate pool (top half of 4
edges) is exactly the two parallel 0-1 edges. -/
def gPar : Graph :=
  { nodes := [⟨0, 0, 0⟩, ⟨1, 1, 1⟩, ⟨2, 2, 2⟩, ⟨3, 3, 3⟩],
    edges := [⟨0, 1, some 10⟩, ⟨0, 1, some 9⟩, ⟨2, 3, some 2⟩, ⟨2, 3, some 1⟩] }

/-- A two-node graph whose single edge has the fractional length 1500.5 m. -/
def gFrac : Graph :=
  { nodes := [⟨0, 0, 0⟩, ⟨1, 1, 1⟩],
    edges := [⟨0, 1, some ((3001 : ℚ) / 2)⟩] }

example : isConnected cycle4 = true := by decide
example : isConnected pathGraph = true := by decide
example : edgeRemovalPass 3 pathGraph = pathGraph := by decide

/-! ## Reachability lemmas -/

lemma mem_nstep {g : Graph} {s : Finset ℕ} {b : ℕ} :
    b ∈ nstep g s ↔ b ∈ s ∨ (b ∈ g.nodeIds ∧ ∃ a ∈ s, g.adj a b = true) := by
  simp [nstep, List.mem_toFinset]

lemma subset_nstep (g : Graph) (s : Finset ℕ) : s ⊆ nstep g s :=
  Finset.subset_union_left

lemma iterate_nstep_mono_steps (g : Graph) (s : Finset ℕ) {j k : ℕ} (h : j ≤ k) :
    (nstep g)^[j] s ⊆ (nstep g)^[k] s := by
  induction k, h using Nat.le_induction with
  | base => exact subset_rfl
  | succ k hk ih =>
    rw [Function.iterate_succ_apply']
    exact ih.trans (subset_nstep g _)

lemma iterate_nstep_subset_nodes (g : Graph) {s : Finset ℕ}
    (hs : s ⊆ g.nodeIds.toFinset) : ∀ k, (nstep g)^[k] s ⊆ g.nodeIds.toFinset
  | 0 => hs
  | k + 1 => by
    rw [Function.iterate_succ_apply']
    intro b hb
    rcases mem_nstep.mp hb with h | ⟨h, _⟩
    · exact iterate_nstep_subset_nodes g hs k h
    · exact List.mem_toFinset.mpr h

lemma nstep_fix_iterate (g : Graph) {s : Finset ℕ} (h : nstep g s = s) :
    ∀ k, (nstep g)^[k] s = s
  | 0 => rfl
  | k + 1 => by rw [Function.iterate_succ_apply', nstep_fix_iterate g h k, h]

lemma iterate_fix_from (g : Graph) {s : Finset ℕ} {j : ℕ}
    (h : nstep g ((nstep g)^[j] s) = (nstep g)^[j] s) {k : ℕ} (hjk : j ≤ k) :
    (nstep g)^[k] s = (nstep g)^[j] s := by
  obtain ⟨m, rfl⟩ := Nat.exists_eq_add_of_le hjk
  rw [Nat.add_comm, Function.iterate_add_apply]
  exact nstep_fix_iterate g h m

lemma nstep_growth (g : Graph) (s : Finset ℕ) :
    ∀ k, (∃ j ≤ k, nstep g ((nstep g)^[j] s) = (nstep g)^[j] s) ∨
      k + s.card ≤ ((nstep g)^[k] s).card
  | 0 => Or.inr (by simp)
  | k + 1 => by
    rcases nstep_growth g s k with ⟨j, hj, hfix⟩ | hcard
    · exact Or.inl ⟨j, hj.trans (Nat.le_succ k), hfix⟩
    · by_cases hfix : nstep g ((nstep g)^[k] s) = (nstep g)^[k] s
      · exact Or.inl ⟨k, Nat.le_succ k, hfix⟩
      · right
        have hss : (nstep g)^[k] s ⊂ (nstep g)^[k + 1] s := by
          rw [Function.iterate_succ_apply']
          exact Finset.ssubset_iff_subset_ne.mpr
            ⟨subset_nstep g _, fun hh => hfix hh.symm⟩
        have := Finset.card_lt_card hss
        omega

lemma nstep_reachF (g : Graph) {h0 : ℕ} (h : h0 ∈ g.nodeIds) :
    nstep g (reachF g h0) = reachF g h0 := by
  unfold reachF
  rcases nstep_growth g {h0} g.nodes.length with ⟨j, hj, hfix⟩ | hcard
  · rw [iterate_fix_from g hfix hj]
    exact hfix
  · exfalso
    have h1 : ({h0} : Finset ℕ) ⊆ g.nodeIds.toFinset := by
      simp [Finset.singleton_subset_iff, List.mem_toFinset, h]
    have h2 := iterate_nstep_subset_nodes g h1 g.nodes.length
    have h3 := Finset.card_le_card h2
    have h4 := List.toFinset_card_le (l := g.nodeIds)
    have h5 : g.nodeIds.length = g.nodes.length := by simp [Graph.nodeIds]
    simp only [Finset.card_singleton] at hcard
    omega

/-- Reachability between nodes of `g`, the transitive closure of adjacency
restricted to the node set. -/
inductive Reaches (g : Graph) : ℕ → ℕ → Prop
  | refl {a : ℕ} : a ∈ g.nodeIds → Reaches g a a
  | tail {a b c : ℕ} : Reaches g a b → g.adj b c = true → c ∈ g.nodeIds → Reaches g a c

lemma reaches_mem_left {g : Graph} {a b : ℕ} (h : Reaches g a b) : a ∈ g.nodeIds := by
  induction h with
  | refl h => exact h
  | tail _ _ _ ih => exact ih

lemma reaches_mem_right {g : Graph} {a b : ℕ} (h : Reaches g a b) : b ∈ g.nodeIds := by
  induction h with
  | refl h => exact h
  | tail _ _ hc _ => exact hc

lemma reaches_trans {g : Graph} {a b c : ℕ}
    (h1 : Reaches g a b) (h2 : Reaches g b c) : Reaches g a c := by
  induction h2 with
  | refl _ => exact h1
  | tail _ hadj hc ih => exact .tail ih hadj hc

lemma adj_comm {g : Graph} {a b : ℕ} (h : g.adj a b = true) : g.adj b a = true := by
  simp only [Graph.adj, List.any_eq_true, decide_eq_true_eq] at h ⊢
  obtain ⟨e, he, hm⟩ := h
  exact ⟨e, he, hm.elim Or.inr Or.inl⟩

lemma reaches_symm {g : Graph} {a b : ℕ} (h : Reaches g a b) : Reaches g b a := by
  induction h with
  | refl h => exact .refl h
  | tail hab hadj hc ih =>
    exact reaches_trans (.tail (.refl hc) (adj_comm hadj) (reaches_mem_right hab)) ih

lemma reaches_of_mem_iterate (g : Graph) {h0 : ℕ} (hh : h0 ∈ g.nodeIds) :
    ∀ (k : ℕ) (b : ℕ), b ∈ (nstep g)^[k] {h0} → Reaches g h0 b
  | 0, b, hb => by
    rw [Function.iterate_zero_apply, Finset.mem_singleton] at hb
    subst hb
    exact .refl hh
  | k + 1, b, hb => by
    rw [Function.iterate_succ_apply'] at hb
    rcases mem_nstep.mp hb with h | ⟨hbn, a, ha, hadj⟩
    · exact reaches_of_mem_iterate g hh k b h
    · exact .tail (reaches_of_mem_iterate g hh k a ha) hadj hbn

lemma mem_reachF_iff (g : Graph) {h0 : ℕ} (hh : h0 ∈ g.nodeIds) {b : ℕ} :
    b ∈ reachF g h0 ↔ Reaches g h0 b := by
  constructor
  · exact reaches_of_mem_iterate g hh g.nodes.length b
  · intro hr
    induction hr with
    | refl h =>
      exact iterate_nstep_mono_steps g {h0} (Nat.zero_le _) (Finset.mem_singleton_self h0)
    | tail hab hadj hc ih =>
      rw [← nstep_reachF g hh]
      exact mem_nstep.mpr (Or.inr ⟨hc, _, ih, hadj⟩)

lemma headD_mem {l : List ℕ} (h : l ≠ []) : l.headD 0 ∈ l := by
  cases l with
  | nil => exact absurd rfl h
  | cons a l => exact List.mem_cons_self a l

lemma isConnected_iff {g : Graph} :
    isConnected g = true ↔
      g.nodeIds ≠ [] ∧ ∀ b ∈ g.nodeIds, b ∈ reachF g (g.nodeIds.headD 0) :=
  decide_eq_true_iff

lemma isConnected_iff_reaches {g : Graph} :
    isConnected g = true ↔
      g.nodeIds ≠ [] ∧ ∀ b ∈ g.nodeIds, Reaches g (g.nodeIds.headD 0) b := by
  rw [isConnected_iff]
  constructor
  · rintro ⟨hne, h⟩
    exact ⟨hne, fun b hb => (mem_reachF_iff g (headD_mem hne)).mp (h b hb)⟩
  · rintro ⟨hne, h⟩
    exact ⟨hne, fun b hb => (mem_reachF_iff g (headD_mem hne)).mpr (h b hb)⟩

/-! ## Connectivity of the largest component -/

lemma mem_induced_nodeIds {g : Graph} {S : Finset ℕ} {b : ℕ} :
    b ∈ (induced g S).nodeIds ↔ b ∈ g.nodeIds ∧ b ∈ S := by
  simp only [Graph.nodeIds, induced, List.mem_map, List.mem_filter, decide_eq_true_eq]
  constructor
  · rintro ⟨n, ⟨hn, hs⟩, rfl⟩
    exact ⟨⟨n, hn, rfl⟩, hs⟩
  · rintro ⟨⟨n, hn, rfl⟩, hs⟩
    exact ⟨n, ⟨hn, hs⟩, rfl⟩

lemma adj_induced_of {g : Graph} {S : Finset ℕ} {a b : ℕ}
    (ha : a ∈ S) (hb : b ∈ S) (h : g.adj a b = true) : (induced g S).adj a b = true := by
  simp only [Graph.adj, List.any_eq_true, decide_eq_true_eq] at h ⊢
  obtain ⟨e, he, hm⟩ := h
  refine ⟨e, ?_, hm⟩
  simp only [induced, List.mem_filter, Bool.and_eq_true, decide_eq_true_eq]
  rcases hm with ⟨h1, h2⟩ | ⟨h1, h2⟩
  · exact ⟨he, h1 ▸ ha, h2 ▸ hb⟩
  · exact ⟨he, h1 ▸ hb, h2 ▸ ha⟩

lemma reaches_induced {g : Graph} {S : Finset ℕ} {a : ℕ}
    (hS : ∀ x, Reaches g a x → x ∈ S) :
    ∀ {c : ℕ}, Reaches g a c → Reaches (induced g S) a c := by
  intro c h
  induction h with
  | refl h => exact .refl (mem_induced_nodeIds.mpr ⟨h, hS _ (.refl h)⟩)
  | tail hab hadj hc ih =>
    exact .tail ih (adj_induced_of (hS _ hab) (hS _ (.tail hab hadj hc)) hadj)
      (mem_induced_nodeIds.mpr ⟨hc, hS _ (.tail hab hadj hc)⟩)

lemma isConnected_induced_reachF (g : Graph) {h0 : ℕ} (h : h0 ∈ g.nodeIds) :
    isConnected (induced g (reachF g h0)) = true := by
  have hmem : ∀ x, x ∈ reachF g h0 ↔ Reaches g h0 x := fun x => mem_reachF_iff g h
  have h0S : h0 ∈ reachF g h0 := (hmem h0).mpr (.refl h)
  have h0mem : h0 ∈ (induced g (reachF g h0)).nodeIds :=
    mem_induced_nodeIds.mpr ⟨h, h0S⟩
  have hne : (induced g (reachF g h0)).nodeIds ≠ [] := List.ne_nil_of_mem h0mem
  obtain ⟨haN, haS⟩ :=
    mem_induced_nodeIds.mp (headD_mem (l := (induced g (reachF g h0)).nodeIds) hne)
  rw [isConnected_iff_reaches]
  refine ⟨hne, fun b hb => ?_⟩
  obtain ⟨hbN, hbS⟩ := mem_induced_nodeIds.mp hb
  have hab : Reaches g ((induced g (reachF g h0)).nodeIds.headD 0) b :=
    reaches_trans (reaches_symm ((hmem _).mp haS)) ((hmem b).mp hbS)
  refine reaches_induced (fun x hx => ?_) hab
  exact (hmem x).mpr (reaches_trans ((hmem _).mp haS) hx)

lemma componentsAux_spec (g : Graph) :
    ∀ (l : List ℕ) (seen : Finset ℕ), (∀ n ∈ l, n ∈ g.nodeIds) →
      ∀ c ∈ componentsAux g l seen, ∃ n ∈ g.nodeIds, c = reachF g n
  | [], _, _, c, hc => absurd hc (List.not_mem_nil c)
  | n :: l, seen, hl, c, hc => by
    rw [componentsAux] at hc
    split at hc
    · exact componentsAux_spec g l seen (fun m hm => hl m (List.mem_cons_of_mem n hm)) c hc
    · rcases List.mem_cons.mp hc with rfl | hc2
      · exact ⟨n, hl n (List.mem_cons_self n l), rfl⟩
      · exact componentsAux_spec g l _ (fun m hm => hl m (List.mem_cons_of_mem n hm)) c hc2

lemma connected_components_ne_nil {g : Graph} (h : g.nodeIds ≠ []) :
    connected_components g ≠ [] := by
  unfold connected_components
  cases hl : g.nodeIds with
  | nil => exact absurd hl h
  | cons n l => simp [componentsAux]

lemma foldl_max_mem : ∀ (cs : List (Finset ℕ)) (c : Finset ℕ),
    cs.foldl (fun best c2 => if best.card < c2.card then c2 else best) c ∈ c :: cs
  | [], c => List.mem_cons_self c []
  | c2 :: cs, c => by
    rw [List.foldl_cons]
    by_cases hlt : c.card < c2.card
    · rw [if_pos hlt]
      exact List.mem_cons_of_mem c (foldl_max_mem cs c2)
    · rw [if_neg hlt]
      rcases List.mem_cons.mp (foldl_max_mem cs c) with h | h
      · rw [h]
        exact List.mem_cons_self c (c2 :: cs)
      · exact List.mem_cons_of_mem c (List.mem_cons_of_mem c2 h)

lemma isConnected_largestCC {g : Graph} (h : g.nodes ≠ []) :
    isConnected (largestCC g) = true := by
  have hids : g.nodeIds ≠ [] := by
    simpa [Graph.nodeIds] using h
  have hne := connected_components_ne_nil hids
  unfold largestCC largest_cc
  split
  · next heq => exact absurd heq hne
  · next c cs heq =>
    have hmem := foldl_max_mem cs c
    rw [← heq] at hmem
    obtain ⟨n, hn, hcc⟩ :=
      componentsAux_spec g g.nodeIds ∅ (fun m hm => hm) _ hmem
    rw [hcc]
    exact isConnected_induced_reachF g hn

/-! ## The reduction loop preserves connectivity -/

lemma reaches_mono {g1 g2 : Graph} (hn : g1.nodes = g2.nodes)
    (ha : ∀ a b, g1.adj a b = true → g2.adj a b = true) {a c : ℕ}
    (h : Reaches g1 a c) : Reaches g2 a c := by
  have hids : g1.nodeIds = g2.nodeIds := by simp [Graph.nodeIds, hn]
  induction h with
  | refl h => exact .refl (hids ▸ h)
  | tail _ hadj hc ih => exact .tail ih (ha _ _ hadj) (hids ▸ hc)

lemma isConnected_mono {g1 g2 : Graph} (hn : g1.nodes = g2.nodes)
    (ha : ∀ a b, g1.adj a b = true → g2.adj a b = true)
    (h : isConnected g1 = true) : isConnected g2 = true := by
  have hids : g1.nodeIds = g2.nodeIds := by simp [Graph.nodeIds, hn]
  rw [isConnected_iff_reaches] at h ⊢
  rw [← hids]
  exact ⟨h.1, fun b hb => reaches_mono hn ha (h.2 b hb)⟩

lemma mem_removeFirst {p : Edge → Bool} {e : Edge} :
    ∀ {l : List Edge}, e ∈ l → e ∈ removeFirst p l ∨ p e = true
  | [], h => absurd h (List.not_mem_nil e)
  | a :: l, h => by
    rw [removeFirst]
    by_cases hp : p a
    · rw [if_pos hp]
      rcases List.mem_cons.mp h with rfl | h2
      · exact Or.inr hp
      · exact Or.inl h2
    · rw [if_neg hp]
      rcases List.mem_cons.mp h with rfl | h2
      · exact Or.inl (List.mem_cons_self e (removeFirst p l))
      · rcases mem_removeFirst h2 with h3 | h3
        · exact Or.inl (List.mem_cons_of_mem a h3)
        · exact Or.inr h3

lemma adj_restore {g : Graph} {u v a b : ℕ} (h : g.adj a b = true) :
    (addEdge (removeEdge g u v) u v).adj a b = true := by
  simp only [Graph.adj, List.any_eq_true, decide_eq_true_eq] at h ⊢
  obtain ⟨e, he, hm⟩ := h
  rcases mem_removeFirst
      (p := fun e => decide ((e.u = u ∧ e.v = v) ∨ (e.u = v ∧ e.v = u))) he with h2 | h2
  · refine ⟨e, ?_, hm⟩
    simp only [addEdge, removeEdge, List.mem_append]
    exact Or.inl h2
  · refine ⟨⟨u, v, none⟩, ?_, ?_⟩
    · simp [addEdge, removeEdge]
    · simp only [decide_eq_true_eq] at h2
      rcases h2 with ⟨h3, h4⟩ | ⟨h3, h4⟩ <;> rcases hm with ⟨h5, h6⟩ | ⟨h5, h6⟩ <;>
        subst h3 <;> subst h4 <;> simp_all

lemma isConnected_tryRemove {t : ℕ} {g : Graph} (h : isConnected g = true) (p : ℕ × ℕ) :
    isConnected (tryRemove t g p) = true := by
  unfold tryRemove
  split
  · exact h
  · split
    · next hc => exact hc
    · exact @isConnected_mono g (addEdge (removeEdge g p.1 p.2) p.1 p.2) rfl
        (fun a b => adj_restore) h

lemma isConnected_foldl_tryRemove (t : ℕ) :
    ∀ (l : List (ℕ × ℕ)) {g : Graph}, isConnected g = true →
      isConnected (l.foldl (tryRemove t) g) = true
  | [], _, h => h
  | p :: l, _, h => isConnected_foldl_tryRemove t l (isConnected_tryRemove h p)

lemma isConnected_edgeRemovalPass {t : ℕ} {g : Graph} (h : isConnected g = true) :
    isConnected (edgeRemovalPass t g) = true :=
  isConnected_foldl_tryRemove t _ h

lemma roundTrip_ok {g g1 : Graph} (h : roundTrip g = Except.ok g1) : g1 = g := by
  unfold roundTrip at h
  split at h
  · cases h
  · exact (Except.ok.inj h).symm

lemma adjustLoop_isConnected {t : ℕ} :
    ∀ (fuel : ℕ) {g g' : Graph}, isConnected g = true →
      adjustLoop t fuel g = Except.ok (some g') → isConnected g' = true
  | 0, _, _, _, h => by simp [adjustLoop] at h
  | fuel + 1, g, g', hc, h => by
    rw [adjustLoop] at h
    split at h
    · simp only [Except.ok.injEq, Option.some.injEq] at h
      exact h ▸ hc
    · split at h
      · cases h
      · next g1 heq =>
        rw [roundTrip_ok heq] at h
        refine adjustLoop_isConnected fuel ?_ h
        split
        · exact isConnected_edgeRemovalPass hc
        · exact hc

/-- Claim C1: whenever `adjust_network_size` returns a graph, that graph is
a single connected component (its traversal from the first node reaches
every node). -/
theorem reduce_ok_isConnected (fuel target_nodes : ℕ) (g g' : Graph)
    (h : adjust_network_size fuel g target_nodes = Except.ok (some g')) :
    isConnected g' = true := by
  unfold adjust_network_size at h
  split at h
  · cases h
  · next hne =>
    have hg : g.nodes ≠ [] := by
      simpa [List.isEmpty_iff] using hne
    exact adjustLoop_isConnected fuel (isConnected_largestCC hg) h

/-- Witness for C1 at a concrete input: reducing the 4-cycle to target 9
returns the cycle itself, and the claim's conclusion evaluates to true. -/
theorem reduce_ok_isConnected_witness :
    isConnected cycle4 = true :=
  reduce_ok_isConnected 1 9 cycle4 cycle4 rfl

/-! ## Node count through the reduction (claim C9) -/

lemma tryRemove_nodes (t : ℕ) (g : Graph) (p : ℕ × ℕ) :
    (tryRemove t g p).nodes = g.nodes := by
  unfold tryRemove
  split
  · rfl
  · split <;> rfl

lemma foldl_tryRemove_nodes (t : ℕ) :
    ∀ (l : List (ℕ × ℕ)) (g : Graph), (l.foldl (tryRemove t) g).nodes = g.nodes
  | [], _ => rfl
  | p :: l, g => (foldl_tryRemove_nodes t l (tryRemove t g p)).trans (tryRemove_nodes t g p)

lemma edgeRemovalPass_nodes (t : ℕ) (g : Graph) :
    (edgeRemovalPass t g).nodes = g.nodes :=
  foldl_tryRemove_nodes t _ g

lemma adjustLoop_nodes {t : ℕ} :
    ∀ (fuel : ℕ) {g g' : Graph},
      adjustLoop t fuel g = Except.ok (some g') → g'.nodes = g.nodes
  | 0, _, _, h => by simp [adjustLoop] at h
  | fuel + 1, g, g', h => by
    rw [adjustLoop] at h
    split at h
    · simp only [Except.ok.injEq, Option.some.injEq] at h
      rw [← h]
    · split at h
      · cases h
      · next g1 heq =>
        rw [roundTrip_ok heq] at h
        have := adjustLoop_nodes fuel h
        rw [this]
        split
        · exact edgeRemovalPass_nodes t g
        · rfl

/-- Claim C9: the node count of any returned graph equals (hence is at
most) the node count of the input's largest connected component, and no
step of the reduction — a candidate removal, a full pass — ever increases
the node count. -/
theorem reduce_node_count_monotone :
    (∀ (fuel t : ℕ) (g g' : Graph),
        adjust_network_size fuel g t = Except.ok (some g') →
        g'.nodes.length ≤ (largestCC g).nodes.length) ∧
    (∀ (t : ℕ) (g : Graph) (p : ℕ × ℕ),
        (tryRemove t g p).nodes.length ≤ g.nodes.length) ∧
    (∀ (t : ℕ) (g : Graph),
        (edgeRemovalPass t g).nodes.length ≤ g.nodes.length) := by
  refine ⟨fun fuel t g g' h => ?_, fun t g p => ?_, fun t g => ?_⟩
  · unfold adjust_network_size at h
    split at h
    · cases h
    · rw [adjustLoop_nodes fuel h]
  · rw [tryRemove_nodes]
  · rw [edgeRemovalPass_nodes]

/-- Witness for C9 at a concrete input. -/
theorem reduce_node_count_monotone_witness :
    cycle4.nodes.length ≤ (largestCC cycle4).nodes.length :=
  reduce_node_count_monotone.1 1 9 cycle4 cycle4 rfl

/-! ## Divergence of the reduction below the spanning-tree barrier
(claims C2 and C3)

On the 4-cycle with target 3 the first pass removes edge A-B and leaves
the spanning path `pathGraph`; every later pass removes nothing (each
removal would isolate a node or split the path, and the code's
connectivity check is evaluated on the full node set), so the `while`
loop never exits. -/

lemma adjustLoop_pathGraph : ∀ (n : ℕ), adjustLoop 3 n pathGraph = Except.ok none
  | 0 => rfl
  | n + 1 => by
    have hstep : adjustLoop 3 (n + 1) pathGraph = adjustLoop 3 n pathGraph := rfl
    rw [hstep]
    exact adjustLoop_pathGraph n

/-- Claim C2: the code has no stall exit — on the 4-cycle with target 3 the
reduction never returns for any number of loop iterations, even though the
pass over the spanning path removes no edge while the node count is still
above target (the stalled pass is a fixpoint of the loop body). -/
theorem reduce_cycle4_target3_diverges :
    (∀ fuel : ℕ, adjust_network_size fuel cycle4 3 = Except.ok none) ∧
    edgeRemovalPass 3 pathGraph = pathGraph ∧
    3 < pathGraph.nodes.length := by
  refine ⟨fun fuel => ?_, by decide, by decide⟩
  match fuel with
  | 0 => rfl
  | n + 1 =>
    have hstep : adjust_network_size (n + 1) cycle4 3 = adjustLoop 3 n pathGraph := rfl
    rw [hstep]
    exact adjustLoop_pathGraph n

/-- Claim C3: reducing the 4-cycle to target 3 never returns at all (so it
never yields a 3-node path), and the code's connectivity check is applied
to the full graph rather than to the degree-positive restriction: removing
edge B-C from the spanning path is rejected by the code's check, although
the spec's restricted check accepts it and would leave a connected 3-node
path. -/
theorem reduce_cycle4_target3_no_path :
    (∀ fuel : ℕ, adjust_network_size fuel cycle4 3 = Except.ok none) ∧
    isConnected (removeEdge pathGraph 1 2) = false ∧
    connCheckRestricted (removeEdge pathGraph 1 2) = true ∧
    (dropIsolated (removeEdge pathGraph 1 2)).nodes.length = 3 := by
  refine ⟨fun fuel => ?_, by decide, by decide, by decide⟩
  match fuel with
  | 0 => rfl
  | n + 1 =>
    have hstep : adjust_network_size (n + 1) cycle4 3 = adjustLoop 3 n pathGraph := rfl
    rw [hstep]
    exact adjustLoop_pathGraph n

/-! ## Export: edge-list shape (claim C4) -/

lemma edgesRows_length (g : Graph) :
    ∀ (es : List Edge), (edgesRows g es).length = 2 * es.length
  | [] => rfl
  | e :: es => by
    rw [edgesRows]
    simp only [List.length_cons, edgesRows_length g es]
    omega

lemma edgesRows_symm (g : Graph) :
    ∀ (es : List Edge) {a b : ℕ} {w : ℚ},
      (a, b, w) ∈ edgesRows g es → (b, a, w) ∈ edgesRows g es
  | [], _, _, _, h => absurd h (List.not_mem_nil _)
  | e :: es, a, b, w, h => by
    rw [edgesRows] at h ⊢
    rcases List.mem_cons.mp h with h1 | h2
    · simp only [Prod.mk.injEq] at h1
      obtain ⟨rfl, rfl, rfl⟩ := h1
      exact List.mem_cons_of_mem _ (List.mem_cons_self _ _)
    · rcases List.mem_cons.mp h2 with h1 | h3
      · simp only [Prod.mk.injEq] at h1
        obtain ⟨rfl, rfl, rfl⟩ := h1
        exact List.mem_cons_self _ _
      · exact List.mem_cons_of_mem _ (List.mem_cons_of_mem _ (edgesRows_symm g es h3))

/-- Claim C4: for every (well-formed) graph and task-edge set, the exported
edge list has exactly `2 * |edges|` triples, and every triple `[a, b, w]`
has its reversed companion `[b, a, w]` in the list. -/
theorem export_edge_list_length_symm (g : Graph) (_hg : g.WellFormed) :
    (edges_data g).length = 2 * g.edges.length ∧
    ∀ (a b : ℕ) (w : ℚ), (a, b, w) ∈ edges_data g → (b, a, w) ∈ edges_data g :=
  ⟨edgesRows_length g g.edges, fun _ _ _ h => edgesRows_symm g g.edges h⟩

/-- Witness for C4 at a concrete input: the reversal of the first exported
triple of the 4-cycle is in the list. -/
theorem export_edge_list_length_symm_witness :
    ((1 : ℕ), (0 : ℕ), (1 : ℚ) / 10) ∈ edges_data cycle4 :=
  (export_edge_list_length_symm cycle4 (by decide)).2 0 1 ((1 : ℚ) / 10)
    (by with_unfolding_all decide)

/-! ## Export: edge weights (claim C5) -/

/-- Claim C5 counterexample: the edge of `gFrac` has length 1500.5 m, and
both its exported triples carry weight 1.5 km — `int()` truncates the
length before the division — not the claimed 1500.5/1000 = 1.5005 km. -/
theorem export_weight_truncates_cex :
    edges_data gFrac = [(0, 1, (3 : ℚ) / 2), (1, 0, (3 : ℚ) / 2)] ∧
    ((3001 : ℚ) / 2) / 1000 ≠ (3 : ℚ) / 2 := by with_unfolding_all decide

lemma mem_edgesRows_of_mem (g : Graph) :
    ∀ (es : List Edge) {e : Edge}, e ∈ es →
      (node_to_index g e.u, node_to_index g e.v, edgeWeightKm e) ∈ edgesRows g es ∧
      (node_to_index g e.v, node_to_index g e.u, edgeWeightKm e) ∈ edgesRows g es
  | [], _, h => absurd h (List.not_mem_nil _)
  | e2 :: es, e, h => by
    rw [edgesRows]
    rcases List.mem_cons.mp h with rfl | h2
    · exact ⟨List.mem_cons_self _ _, List.mem_cons_of_mem _ (List.mem_cons_self _ _)⟩
    · obtain ⟨ha, hb⟩ := mem_edgesRows_of_mem g es h2
      exact ⟨List.mem_cons_of_mem _ (List.mem_cons_of_mem _ ha),
        List.mem_cons_of_mem _ (List.mem_cons_of_mem _ hb)⟩

/-- Claim C5 amended: each of an edge's two exported directed triples
carries weight `int(length_m) / 1000` — the length is truncated toward
zero to whole meters before the kilometer conversion (so integer lengths
export as exactly `length_m / 1000`), and a missing length attribute
defaults to 1 m, i.e. 0.001 km, rather than failing. -/
theorem export_weight_trunc (g : Graph) (e : Edge) (he : e ∈ g.edges) :
    (node_to_index g e.u, node_to_index g e.v, (pyInt e.length : ℚ) / 1000) ∈ edges_data g ∧
    (node_to_index g e.v, node_to_index g e.u, (pyInt e.length : ℚ) / 1000) ∈ edges_data g ∧
    (e.length = none → (pyInt e.length : ℚ) / 1000 = (1 : ℚ) / 1000) ∧
    (∀ z : ℤ, e.length = some (z : ℚ) → (pyInt e.length : ℚ) / 1000 = (z : ℚ) / 1000) := by
  obtain ⟨h1, h2⟩ := mem_edgesRows_of_mem g g.edges he
  refine ⟨h1, h2, fun hn => by rw [hn]; simp [pyInt],
    fun z hz => by rw [hz]; simp [pyInt]⟩

/-- Witness for C5 at a concrete input: the 100 m edge of the 4-cycle is
exported with weight `int(100)/1000` km. -/
theorem export_weight_trunc_witness :
    (node_to_index cycle4 0, node_to_index cycle4 1,
      (pyInt (some (100 : ℚ)) : ℚ) / 1000) ∈ edges_data cycle4 :=
  (export_weight_trunc cycle4 ⟨0, 1, some 100⟩ (by decide)).1

/-! ## Export: index bijection and coordinates (claim C7) -/

lemma idxIn_lt_length {a : ℕ} : ∀ {l : List ℕ}, a ∈ l → idxIn a l < l.length
  | [], h => absurd h (List.not_mem_nil a)
  | b :: l, h => by
    rw [idxIn]
    by_cases hb : b = a
    · rw [if_pos hb]
      simp
    · rw [if_neg hb]
      have h2 : a ∈ l := by
        rcases List.mem_cons.mp h with rfl | h2
        · exact absurd rfl hb
        · exact h2
      simpa using idxIn_lt_length h2

lemma idxIn_inj : ∀ {l : List ℕ} {a b : ℕ}, a ∈ l → b ∈ l →
    idxIn a l = idxIn b l → a = b
  | [], a, _, ha, _, _ => absurd ha (List.not_mem_nil a)
  | c :: l, a, b, ha, hb, h => by
    rw [idxIn, idxIn] at h
    by_cases hca : c = a <;> by_cases hcb : c = b
    · rw [← hca, ← hcb]
    · rw [if_pos hca, if_neg hcb] at h
      omega
    · rw [if_neg hca, if_pos hcb] at h
      omega
    · rw [if_neg hca, if_neg hcb] at h
      have ha2 : a ∈ l := by
        rcases List.mem_cons.mp ha with rfl | h2
        · exact absurd rfl hca
        · exact h2
      have hb2 : b ∈ l := by
        rcases List.mem_cons.mp hb with rfl | h2
        · exact absurd rfl hcb
        · exact h2
      exact idxIn_inj ha2 hb2 (by omega)

lemma idxIn_surj : ∀ {l : List ℕ}, l.Nodup → ∀ i, i < l.length →
    ∃ a ∈ l, idxIn a l = i
  | [], _, i, hi => absurd hi (by simp)
  | c :: l, hnd, i, hi => by
    match i with
    | 0 =>
      refine ⟨c, List.mem_cons_self c l, ?_⟩
      rw [idxIn, if_pos rfl]
    | i + 1 =>
      have hi2 : i < l.length := by simpa using hi
      obtain ⟨a, ha, hia⟩ := idxIn_surj (List.Nodup.of_cons hnd) i hi2
      refine ⟨a, List.mem_cons_of_mem c ha, ?_⟩
      have hca : ¬c = a := fun hc => (List.nodup_cons.mp hnd).1 (hc ▸ ha)
      rw [idxIn, if_neg hca, hia]

lemma coords_at_idx : ∀ (l : List NodeData), (l.map NodeData.id).Nodup →
    ∀ {n : NodeData}, n ∈ l →
      (l.map (fun m => (m.x, m.y))).getD (idxIn n.id (l.map NodeData.id)) (0, 0) =
        (n.x, n.y)
  | [], _, n, h => absurd h (List.not_mem_nil n)
  | m :: l, hnd, n, h => by
    simp only [List.map_cons]
    rw [idxIn]
    by_cases hm : m.id = n.id
    · rw [if_pos hm]
      have hnm : n = m := by
        rcases List.mem_cons.mp h with rfl | h2
        · rfl
        · exact absurd (hm ▸ List.mem_map_of_mem NodeData.id h2)
            (List.nodup_cons.mp hnd).1
      rw [hnm]
      rfl
    · rw [if_neg hm]
      have h2 : n ∈ l := by
        rcases List.mem_cons.mp h with rfl | h2
        · exact absurd rfl hm
        · exact h2
      simpa using coords_at_idx l (List.nodup_cons.mp hnd).2 h2

/-- Claim C7: for a well-formed graph the exported node indexing is a
bijection onto `{0, ..., n-1}` (bounded, injective, surjective, no gaps),
the coordinate list has one entry per node, and the entry at each node's
index is `(longitude, latitude)` — longitude first. -/
theorem export_index_bijection (g : Graph) (hg : g.WellFormed) :
    (∀ a ∈ g.nodeIds, node_to_index g a < g.nodes.length) ∧
    (∀ a ∈ g.nodeIds, ∀ b ∈ g.nodeIds, node_to_index g a = node_to_index g b → a = b) ∧
    (∀ i, i < g.nodes.length → ∃ a ∈ g.nodeIds, node_to_index g a = i) ∧
    (node_coords g).length = g.nodes.length ∧
    (∀ n ∈ g.nodes, (node_coords g).getD (node_to_index g n.id) (0, 0) = (n.x, n.y)) := by
  have hlen : g.nodeIds.length = g.nodes.length := List.length_map _ _
  refine ⟨fun a ha => ?_, fun a ha b hb h => idxIn_inj ha hb h, fun i hi => ?_, ?_,
    fun n hn => ?_⟩
  · rw [← hlen]
    exact idxIn_lt_length ha
  · rw [← hlen] at hi
    exact idxIn_surj hg.1 i hi
  · exact List.length_map _ _
  · exact coords_at_idx g.nodes hg.1 hn

/-- Witness for C7 at a concrete input. -/
theorem export_index_bijection_witness :
    node_to_index cycle4 2 < cycle4.nodes.length :=
  (export_index_bijection cycle4 (by decide)).1 2 (by decide)

/-! ## Concrete scenario: reduce to target 4 and export (claim C8) -/

/-- Claim C8: the 4-cycle with lengths 100/200/300/400 m reduced to target
4 is returned unchanged, and its export has 4 node coordinates and 8
directed edge entries whose kilometer weights are 0.1, 0.2, 0.3, 0.4,
each appearing exactly twice. -/
theorem cycle4_target4_export :
    adjust_network_size 1 cycle4 4 = Except.ok (some cycle4) ∧
    (node_coords cycle4).length = 4 ∧
    (edges_data cycle4).length = 8 ∧
    ((edges_data cycle4).map (fun r => r.2.2)).count ((1 : ℚ) / 10) = 2 ∧
    ((edges_data cycle4).map (fun r => r.2.2)).count ((2 : ℚ) / 10) = 2 ∧
    ((edges_data cycle4).map (fun r => r.2.2)).count ((3 : ℚ) / 10) = 2 ∧
    ((edges_data cycle4).map (fun r => r.2.2)).count ((4 : ℚ) / 10) = 2 :=
  ⟨rfl, by decide, by decide, by with_unfolding_all decide, by with_unfolding_all decide,
    by with_unfolding_all decide, by with_unfolding_all decide⟩

/-! ## Export of the empty graph (claim C10) -/

/-- Claim C10: exporting a zero-node graph with an empty task-edge set does
not fail and yields the record with three empty lists. -/
theorem export_empty_graph :
    export_network_to_json_format ⟨[], []⟩ [] = ⟨[], [], []⟩ := rfl

/-! ## Task-edge selection cardinality (claim C6) -/

lemma length_insortDesc (a : Edge) : ∀ (l : List Edge), (insortDesc a l).length = l.length + 1
  | [] => rfl
  | b :: l => by
    rw [insortDesc]
    split
    · rfl
    · simp [length_insortDesc a l]

lemma length_foldr_insortDesc : ∀ (l : List Edge), (l.foldr insortDesc []).length = l.length
  | [] => rfl
  | e :: l => by
    simp only [List.foldr_cons, length_insortDesc, length_foldr_insortDesc l,
      List.length_cons]

lemma length_candidate_edges (g : Graph) :
    (candidate_edges g).length = g.edges.length / 2 := by
  unfold candidate_edges
  have h : (sorted_edges g).length = g.edges.length := length_foldr_insortDesc g.edges
  rw [List.length_take, h]
  exact Nat.min_eq_left (Nat.div_le_self _ _)

lemma getD_mem {α : Type} (d : α) : ∀ (l : List α) (i : ℕ), i < l.length → l.getD i d ∈ l
  | [], _, h => absurd h (by simp)
  | a :: l, 0, _ => List.mem_cons_self a l
  | a :: l, i + 1, h => List.mem_cons_of_mem a (getD_mem d l i (by simpa using h))

lemma getD_inj {α : Type} (d : α) : ∀ (l : List α), l.Nodup → ∀ (i j : ℕ),
    i < l.length → j < l.length → l.getD i d = l.getD j d → i = j
  | [], _, i, _, hi, _, _ => absurd hi (by simp)
  | a :: l, hnd, i, j, hi, hj, h => by
    match i, j with
    | 0, 0 => rfl
    | 0, j + 1 =>
      exfalso
      rw [List.getD_cons_zero, List.getD_cons_succ] at h
      refine (List.nodup_cons.mp hnd).1 ?_
      rw [h]
      exact getD_mem d l j (by simpa using hj)
    | i + 1, 0 =>
      exfalso
      rw [List.getD_cons_zero, List.getD_cons_succ] at h
      refine (List.nodup_cons.mp hnd).1 ?_
      rw [← h]
      exact getD_mem d l i (by simpa using hi)
    | i + 1, j + 1 =>
      rw [List.getD_cons_succ, List.getD_cons_succ] at h
      have := getD_inj d l (List.nodup_cons.mp hnd).2 i j
        (by simpa using hi) (by simpa using hj) h
      omega

lemma getD_map_uv : ∀ (l : List Edge) (i : ℕ), i < l.length →
    (l.map (fun e => (e.u, e.v))).getD i ((0 : ℕ), (0 : ℕ)) =
      ((l.getD i ⟨0, 0, none⟩).u, (l.getD i ⟨0, 0, none⟩).v)
  | [], _, h => absurd h (by simp)
  | _ :: _, 0, _ => rfl
  | _ :: l, i + 1, h => by simpa using getD_map_uv l i (by simpa using h)

lemma nodup_map_getD {α : Type} [DecidableEq α] (d : α) (l : List α) (hl : l.Nodup) :
    ∀ (sel : List ℕ), sel.Nodup → (∀ i ∈ sel, i < l.length) →
      (sel.map (fun i => l.getD i d)).Nodup
  | [], _, _ => List.nodup_nil
  | i :: sel, hnd, hbound => by
    rw [List.map_cons, List.nodup_cons]
    constructor
    · intro hmem
      obtain ⟨j, hj, hval⟩ := List.mem_map.mp hmem
      have hij : j = i := getD_inj d l hl j i
        (hbound j (List.mem_cons_of_mem i hj)) (hbound i (List.mem_cons_self i sel)) hval
      exact (List.nodup_cons.mp hnd).1 (hij ▸ hj)
    · exact nodup_map_getD d l hl sel (List.nodup_cons.mp hnd).2
        (fun j hj => hbound j (List.mem_cons_of_mem i hj))

/-- Claim C6 counterexample: in `gPar` the candidate pool (the longer half
of the 4 edges) consists of the two parallel 0-1 edges; a valid
2-element draw yields the singleton pair set, not
`min(2, floor(4/2)) = 2` pairs. -/
theorem task_sample_card_cex :
    IsSample (candidate_edges gPar) 2 [0, 1] ∧
    (task_edge_pairs (task_edges (candidate_edges gPar) [0, 1])).card = 1 ∧
    min 2 (gPar.edges.length / 2) = 2 := by
  refine ⟨⟨by decide, by with_unfolding_all decide, by with_unfolding_all decide⟩,
    by with_unfolding_all decide, by decide⟩

/-- Claim C6 amended: for every graph and every `k ≥ 0`, a valid draw of
`random.sample` yields at most `min(k, floor(|E|/2))` undirected pairs —
sampling is without replacement from the longer half — with equality
whenever the sampled candidate edges have pairwise distinct `(u, v)`
endpoint tuples; that covers in particular every draw from a pool whose
endpoint pairs are pairwise distinct (no parallel edges in the pool),
since then any sampled list has distinct tuples.  Parallel edges sampled
together collapse to one pair, so the set can be smaller.  When the pool
is empty the result is the empty set. -/
theorem task_sample_card (g : Graph) (k : ℕ) (sel : List ℕ)
    (h : IsSample (candidate_edges g) k sel) :
    (task_edge_pairs (task_edges (candidate_edges g) sel)).card ≤
      min k (g.edges.length / 2) ∧
    (((task_edges (candidate_edges g) sel).map (fun e => (e.u, e.v))).Nodup →
      (task_edge_pairs (task_edges (candidate_edges g) sel)).card =
        min k (g.edges.length / 2)) ∧
    (((candidate_edges g).map (fun e => (e.u, e.v))).Nodup →
      ((task_edges (candidate_edges g) sel).map (fun e => (e.u, e.v))).Nodup) ∧
    (candidate_edges g = [] →
      task_edge_pairs (task_edges (candidate_edges g) sel) = ∅) := by
  obtain ⟨hnd, hlen, hbound⟩ := h
  have hplen : (candidate_edges g).length = g.edges.length / 2 := length_candidate_edges g
  have hlistlen :
      ((task_edges (candidate_edges g) sel).map (fun e => (e.u, e.v))).length =
        min k (g.edges.length / 2) := by
    simp only [task_edges, List.map_map, List.length_map]
    rw [hlen, hplen]
  refine ⟨?_, ?_, ?_, ?_⟩
  · unfold task_edge_pairs
    exact le_of_le_of_eq (List.toFinset_card_le _) hlistlen
  · intro hpair
    unfold task_edge_pairs
    rw [List.toFinset_card_of_nodup hpair, hlistlen]
  · intro hpool
    have heq : (task_edges (candidate_edges g) sel).map (fun e => (e.u, e.v)) =
        sel.map (fun i =>
          ((candidate_edges g).map (fun e => (e.u, e.v))).getD i ((0 : ℕ), (0 : ℕ))) := by
      rw [task_edges, List.map_map]
      refine List.map_congr_left (fun i hi => ?_)
      exact (getD_map_uv (candidate_edges g) i (hbound i hi)).symm
    have hbound2 : ∀ i ∈ sel, i < ((candidate_edges g).map (fun e => (e.u, e.v))).length := by
      intro i hi
      rw [List.length_map]
      exact hbound i hi
    rw [heq]
    exact nodup_map_getD ((0 : ℕ), (0 : ℕ))
      ((candidate_edges g).map (fun e => (e.u, e.v))) hpool sel hnd hbound2
  · intro hempty
    have hsel : sel = [] := by
      rw [hempty] at hlen
      simp only [List.length_nil, Nat.min_zero] at hlen
      exact List.length_eq_zero.mp hlen
    rw [hsel, hempty]
    rfl

/-- Witness for C6 at a concrete input without parallel edges. -/
theorem task_sample_card_witness :
    (task_edge_pairs (task_edges (candidate_edges cycle4) [0])).card ≤
      min 1 (cycle4.edges.length / 2) :=
  (task_sample_card cycle4 1 [0]
    ⟨by decide, by with_unfolding_all decide, by with_unfolding_all decide⟩).1
